import Mathlib

/-!
Verification of the tson core (src/gui/gui.go): the tree-to-JSON serializer
`makeJSON`, the scalar parser `parseValue`, the substring filter `Search`/`walk`,
the decoder wrapper `UnMarshalJSON`, and the graft handlers `AddNode`/`AddValue`.

The repository's `tree.go` (the `Tree` type, `Reference`, the tree builder
`UpdateView`/`Tree.AddNode`/`NewRootTreeNode`) is not among the provided sources;
those parts are modelled from the specification (each such definition says so in
its doc comment).  Everything else is translated from `src/gui/gui.go`.

Modelling conventions:
* Go strings are Lean `String`s; character-level work happens on `String.data`
  (a `List Char`).  Go's `strings.ToLower` is modelled by `Char.toLower` per
  character (the claims only exercise ASCII).
* Machine integers: `strconv.Atoi` produces a 64-bit `int`; we model its exact
  syntax and its range clamping (`Atoi` returns the clamped extremum together
  with `ErrRange`, and `gui.go` discards the error).
* JSON numbers: `encoding/json` decodes numbers into `float64`.  Following the
  specification's data model (spec §3: "Number (integral or fractional)"),
  numbers are modelled exactly: integral numbers as `Int`, non-integral numbers
  as their canonical decimal rendering (a `FloatLit`).  `strconv.ParseFloat`
  followed by JSON re-encoding is modelled by evaluating ParseFloat's decimal
  grammar exactly and re-rendering the value canonically: the identity on
  canonical texts, the parsed value on every other accepted decimal spelling
  (so `2`, `1.50`, `1e3`, `0.10` come back as `2`, `1.5`, `1000`, `0.1`), and
  the zero value only on rejected text.  Float64 rounding, the sign of zero,
  exponent formatting of large magnitudes, and the `Inf`/`NaN`/hex/underscore
  spellings (which `encoding/json` cannot encode, or which leave the decimal
  grammar) are outside the exact-decimal model.
* Fallible code returns `Option`/`Except`; the single panic site in the core
  (`node.GetChildren()[0]` on a childless Key node) makes `makeJSON`
  `Option`-valued.
-/

/-- The `JSONType` tag stored in a node's `Reference` (tree.go, used by gui.go). -/
inductive JSONType where
  | Object
  | Array
  | Key
  | Value
deriving DecidableEq, Repr

/-- The `ValueType` tag stored in a node's `Reference`.  `String` stands for the
scalar-type tag that falls through `parseValue`'s switch (any unmatched type
returns the raw text). -/
inductive ValueType where
  | Int
  | Float
  | Boolean
  | Null
  | String
deriving DecidableEq, Repr

/-- One digit character check, as Go's scanner sees bytes '0'..'9'. -/
def isDigitChar (c : Char) : Bool :=
  decide ('0' ≤ c) && decide (c ≤ '9')

/-- Body of the canonical-float check: a nonempty digit run without a leading
zero (unless it is exactly `0`), a dot, and a nonempty digit run whose last
digit is not `0` — so the number is non-integral and the spelling is exactly
the one the canonical renderer produces. -/
def isFloatCore (l : List Char) : Bool :=
  let intPart := l.takeWhile isDigitChar
  match l.dropWhile isDigitChar with
  | '.' :: frac =>
      (!intPart.isEmpty)
        && (intPart.length == 1 || intPart.head? != some '0')
        && (!frac.isEmpty) && frac.all isDigitChar
        && (frac.getLast? != some '0')
  | _ => false

/-- Character list of a canonical non-integral decimal: an optional minus sign
followed by the canonical body. -/
def isFloatChars (cs : List Char) : Bool :=
  if cs.head? = some '-' then isFloatCore cs.tail else isFloatCore cs

/-- String form of `isFloatChars`. -/
def isFloatText (s : String) : Bool := isFloatChars s.data

/-- Modelled from the spec: the specification's exact number model (spec §3)
carries a non-integral number as its canonical decimal rendering; on such texts
`strconv.ParseFloat` followed by JSON re-encoding is the identity. -/
def FloatLit := { s : String // isFloatText s = true }

instance : DecidableEq FloatLit := Subtype.instDecidableEq

/-- The generic JSON value (`interface{}` produced by `encoding/json`), in the
specification's data model: objects are ordered key/value sequences (spec §3).
`int` and `float` split `Number` by integrality, as the Tree Builder's
classifier does (spec §4.1). -/
inductive Json where
  | null
  | bool (b : Bool)
  | int (n : Int)
  | float (f : FloatLit)
  | str (s : String)
  | arr (elems : List Json)
  | obj (fields : List (String × Json))

/-- A `tview.TreeNode` together with its `Reference`: displayed text, the
`JSONType` tag, the `ValueType` tag (meaningful only for `Value` nodes), and
the ordered child list. -/
inductive TreeNode where
  | mk (text : String) (jsonType : JSONType) (valueType : ValueType)
       (children : List TreeNode)

/-- `node.GetText()`. -/
def TreeNode.text : TreeNode → String
  | .mk t _ _ _ => t

/-- `node.GetReference().(Reference).JSONType`. -/
def TreeNode.jsonType : TreeNode → JSONType
  | .mk _ jt _ _ => jt

/-- `node.GetReference().(Reference).ValueType`. -/
def TreeNode.valueType : TreeNode → ValueType
  | .mk _ _ vt _ => vt

/-- `node.GetChildren()`. -/
def TreeNode.children : TreeNode → List TreeNode
  | .mk _ _ _ cs => cs

/-- `node.SetChildren(cs)` on a value copy of the node. -/
def TreeNode.withChildren : TreeNode → List TreeNode → TreeNode
  | .mk t jt vt _, cs => .mk t jt vt cs

/-- `node.AddChild(c)`. -/
def TreeNode.addChild (n : TreeNode) (c : TreeNode) : TreeNode :=
  n.withChildren (n.children ++ [c])

/-! ## Decimal rendering and parsing of integers

`strconv.Atoi` is modelled exactly at the syntax level (optional sign, one or
more digits, nothing else), with the 64-bit range clamping `Atoi` performs on
out-of-range input (it returns the clamped extremum and `ErrRange`; gui.go
discards the error).  The canonical renderer below is the digit-by-digit
decimal writer every Go formatter agrees with on integers. -/

/-- Digit value of a digit character. -/
def digitVal (c : Char) : Nat := c.toNat - 48

/-- Digit character of a digit value below ten. -/
def digitChar (d : Nat) : Char := Char.ofNat (48 + d)

/-- Decimal digits of `n`, most significant first, empty for zero; the `fuel`
argument only drives structural termination (callers pass `n` itself). -/
def renderNatAux : Nat → Nat → List Char
  | 0, _ => []
  | _ + 1, 0 => []
  | fuel + 1, n + 1 =>
      renderNatAux fuel ((n + 1) / 10) ++ [digitChar ((n + 1) % 10)]

/-- Canonical decimal rendering of a natural number. -/
def renderNat (n : Nat) : List Char :=
  if n = 0 then ['0'] else renderNatAux n n

/-- Canonical decimal rendering of an integer. -/
def renderIntChars (n : Int) : List Char :=
  if n < 0 then '-' :: renderNat (-n).toNat else renderNat n.toNat

/-- Canonical decimal rendering of an integer, as a string. -/
def renderInt (n : Int) : String := ⟨renderIntChars n⟩

/-- Digit-run parser: `parseNatLoop acc cs` consumes `cs`, failing on any
non-digit, as `strconv.Atoi`'s digit loop does. -/
def parseNatLoop (acc : Nat) : List Char → Option Nat
  | [] => some acc
  | c :: cs =>
      if isDigitChar c then parseNatLoop (acc * 10 + digitVal c) cs else none

/-- Nonempty all-digit parse. -/
def parseNatChars : List Char → Option Nat
  | [] => none
  | c :: cs => if isDigitChar c then parseNatLoop (digitVal c) cs else none

/-- Syntax of `strconv.Atoi`: optional `+`/`-` sign then one or more digits. -/
def parseIntChars : List Char → Option Int
  | [] => none
  | c :: cs =>
      if c = '+' then (parseNatChars cs).map Int.ofNat
      else if c = '-' then (parseNatChars cs).map (fun n => -(n : Int))
      else (parseNatChars (c :: cs)).map Int.ofNat

/-- Largest 64-bit `int` value. -/
def maxInt64 : Int := 2 ^ 63 - 1

/-- Smallest 64-bit `int` value. -/
def minInt64 : Int := -(2 ^ 63)

/-- Range behaviour of `strconv.Atoi`: out-of-range input yields the clamped
extremum (with `ErrRange`, which the caller in gui.go discards). -/
def clampInt64 (n : Int) : Int :=
  if n > maxInt64 then maxInt64 else if n < minInt64 then minInt64 else n

/-- `i, _ := strconv.Atoi(v)`: the parsed (possibly clamped) value, or the zero
value `0` when the syntax is bad and the error is discarded. -/
def goAtoi (s : String) : Int :=
  match parseIntChars s.data with
  | some n => clampInt64 n
  | none => 0

/-- The twelve spellings `strconv.ParseBool` accepts. -/
def parseBoolAccepted : List String :=
  ["1", "t", "T", "TRUE", "true", "True", "0", "f", "F", "FALSE", "false", "False"]

/-- `b, _ := strconv.ParseBool(v)`: `true` exactly on `ParseBool`'s true set;
every other input (the false set as well as any syntax error, whose error the
caller discards) yields `false`. -/
def goParseBool (s : String) : Bool :=
  decide (s ∈ (["1", "t", "T", "TRUE", "true", "True"] : List String))

/-- Numeric value of an all-digit run (zero when empty), for the mantissa of
the float grammar. -/
def digitsVal (ds : List Char) : Nat := (parseNatLoop 0 ds).getD 0

/-- Mantissa and exponent of `strconv.ParseFloat`'s decimal grammar after the
optional sign: a digit run with optional fraction (at least one digit in all),
then an optional `e`/`E` exponent; the result denotes the exact value
`mantissa * 10 ^ exponent`. -/
def parseFloatBody (sgn : Int) (l : List Char) : Option (Int × Int) :=
  let ipart := l.takeWhile isDigitChar
  let rest := l.dropWhile isDigitChar
  let fpart := if rest.head? = some '.' then rest.tail.takeWhile isDigitChar else []
  let rest2 := if rest.head? = some '.' then rest.tail.dropWhile isDigitChar else rest
  if ipart.isEmpty && fpart.isEmpty then none
  else
    let mant : Int := sgn * (digitsVal (ipart ++ fpart) : Nat)
    match rest2 with
    | [] => some (mant, -(fpart.length : Int))
    | e :: r =>
        if e = 'e' ∨ e = 'E' then
          match parseIntChars r with
          | some ex => some (mant, ex - (fpart.length : Int))
          | none => none
        else none

/-- `strconv.ParseFloat`'s decimal grammar: optional sign, digits with an
optional fraction, optional exponent; on success the exact decimal value.  The
`Inf`/`NaN`, hex-float and underscore spellings are outside the exact-decimal
model (see `floatOutsideModel`). -/
def parseFloatDec (cs : List Char) : Option (Int × Int) :=
  if cs.head? = some '+' then parseFloatBody 1 cs.tail
  else if cs.head? = some '-' then parseFloatBody (-1) cs.tail
  else parseFloatBody 1 cs

/-- Strip up to `k` trailing decimal zeros from the mantissa, reducing the
fractional precision accordingly, as canonical rendering demands. -/
def stripZeros : Int → Nat → Int × Nat
  | m, 0 => (m, 0)
  | m, k + 1 => if m % 10 = 0 then stripZeros (m / 10) k else (m, k + 1)

/-- Canonical decimal text of the non-integral value `m * 10 ^ (-k)` (for `m`
not divisible by ten and `k ≥ 1`): the digits of `m` with a decimal point `k`
places from the right, zero-padded on the left when needed. -/
def floatTextChars (m : Int) (k : Nat) : List Char :=
  let ds := renderNat m.natAbs
  let sign : List Char := if m < 0 then ['-'] else []
  if k < ds.length then
    sign ++ ds.take (ds.length - k) ++ '.' :: ds.drop (ds.length - k)
  else
    sign ++ '0' :: '.' :: (List.replicate (k - ds.length) '0' ++ ds)

/-- The canonical text packaged as a `FloatLit`; the fallback guard is proved
dead for the arguments `encodeDec` supplies (`floatTextChars_ok`). -/
def goFloatText (m : Int) (k : Nat) : Json :=
  if h : isFloatText ⟨floatTextChars m k⟩ = true
  then Json.float ⟨⟨floatTextChars m k⟩, h⟩
  else Json.int 0

/-- JSON encoding of the exact decimal `m * 10 ^ e`: integral values encode as
plain integers (what `encoding/json` prints for them), non-integral values as
their canonical decimal text. -/
def encodeDec (m : Int) (e : Int) : Json :=
  if m = 0 then Json.int 0
  else if 0 ≤ e then Json.int (m * 10 ^ e.toNat)
  else
    match stripZeros m (-e).toNat with
    | (m2, 0) => Json.int m2
    | (m2, k) => goFloatText m2 k

/-- `f, _ := strconv.ParseFloat(v, 64)` followed by JSON encoding, in the
exact-decimal model: a canonical non-integral decimal denotes itself (the
parse/encode cycle fixes canonical texts); every other text is run through
ParseFloat's decimal grammar and the parsed value re-encoded; only rejected
text falls to the zero value `0.0`, which `encoding/json` writes as `0`. -/
def goParseFloatEnc (s : String) : Json :=
  if h : isFloatText s = true then Json.float ⟨s, h⟩
  else
    match parseFloatDec s.data with
    | some me => encodeDec me.1 me.2
    | none => Json.int 0

/-- `parseValue` (gui.go:249-268): dispatch on the node's recorded `ValueType`;
`Int`/`Float`/`Boolean` parse the displayed text discarding errors, `Null` is
`nil`, and the fall-through returns the raw text. -/
def parseValue (node : TreeNode) : Json :=
  let v := node.text
  match node.valueType with
  | .Int => Json.int (goAtoi v)
  | .Float => goParseFloatEnc v
  | .Boolean => Json.bool (goParseBool v)
  | .Null => Json.null
  | .String => Json.str v

/-! ## Byte-order string comparison and the encoder's key sort

`encoding/json` encodes a Go map with its keys sorted ascending by byte-wise
string comparison; byte-wise UTF-8 order coincides with code-point order, which
is what `strLtChars` computes. -/

/-- Lexicographic code-point comparison of character lists (Go `<` on strings). -/
def strLtChars : List Char → List Char → Bool
  | [], [] => false
  | [], _ :: _ => true
  | _ :: _, [] => false
  | a :: as, b :: bs =>
      if a.toNat < b.toNat then true
      else if b.toNat < a.toNat then false
      else strLtChars as bs

/-- Go string `<`. -/
def strLtB (a b : String) : Bool := strLtChars a.data b.data

/-- Ascending insertion by key. -/
def insertByKey (p : String × Json) : List (String × Json) → List (String × Json)
  | [] => [p]
  | q :: rest => if strLtB q.1 p.1 then q :: insertByKey p rest else p :: q :: rest

/-- The encoder's key sort of a Go map's entries. -/
def sortByKey : List (String × Json) → List (String × Json)
  | [] => []
  | p :: rest => insertByKey p (sortByKey rest)

/-- Go map assignment `m[k] = v` on the entry list: overwrite an existing key in
place, otherwise add the entry. -/
def mapSet : List (String × Json) → String → Json → List (String × Json)
  | [], k, v => [(k, v)]
  | (k1, v1) :: rest, k, v =>
      if k1 = k then (k, v) :: rest else (k1, v1) :: mapSet rest k v

mutual

/-- makeJSON (gui.go:219-247), composed with the JSON encoding of its
`interface{}` result, which is where a Go map's keys get sorted and where the
`Array` branch's nil slice (no child was appended) becomes JSON `null`.  The
`Key` branch indexes `GetChildren()[0]` unconditionally — a childless Key node
panics, hence the `Option`; note that branch wraps a non-`Value` child in a
fresh one-entry map under the key's own label. -/
def makeJSON : TreeNode → Option Json
  | .mk text jt vt children =>
    match jt with
    | .Object =>
        (makeObjFields children []).map (fun m => Json.obj (sortByKey m))
    | .Array =>
        (makeArrElems children).map (fun l =>
          match l with
          | [] => Json.null
          | xs => Json.arr xs)
    | .Key =>
        match children with
        | [] => none
        | v :: _ =>
            if v.jsonType = .Value then some (parseValue v)
            else (makeJSON v).map (fun j => Json.obj [(text, j)])
    | .Value => some (parseValue (.mk text .Value vt children))

/-- The `Object` branch's loop: `i[n.GetText()] = g.makeJSON(n)` over the
children, threading the map being built. -/
def makeObjFields : List TreeNode → List (String × Json) → Option (List (String × Json))
  | [], m => some m
  | n :: rest, m =>
      match makeJSON n with
      | none => none
      | some v => makeObjFields rest (mapSet m n.text v)

/-- The `Array` branch's loop: `i = append(i, g.makeJSON(n))` over the children. -/
def makeArrElems : List TreeNode → Option (List Json)
  | [] => some []
  | n :: rest =>
      match makeJSON n, makeArrElems rest with
      | some v, some l => some (v :: l)
      | _, _ => none

end

mutual

/-- Modelled from the spec: the Tree Builder `build` (spec §4.2) with the Scalar
Classifier (spec §4.1); it lives in tree.go (`UpdateView`/`Tree.AddNode`),
which is absent from src/.  Object properties become `Key` children each
holding the built value as single child; array elements are built directly;
scalars become `Value` leaves labelled with the classifier's text.  The
`valueType` slot of non-`Value` nodes and the label of `Object`/`Array` nodes
are immaterial to the core and set to fixed defaults. -/
def build : Json → TreeNode
  | .null => .mk "null" .Value .Null []
  | .bool b => .mk (if b then "true" else "false") .Value .Boolean []
  | .int n => .mk (renderInt n) .Value .Int []
  | .float f => .mk f.val .Value .Float []
  | .str s => .mk s .Value .String []
  | .arr xs => .mk "" .Array .String (buildList xs)
  | .obj fs => .mk "" .Object .String (buildFields fs)

/-- Built subtrees of an array's elements, in order. -/
def buildList : List Json → List TreeNode
  | [] => []
  | x :: xs => build x :: buildList xs

/-- Built `Key` children of an object's properties, in order. -/
def buildFields : List (String × Json) → List TreeNode
  | [] => []
  | (k, v) :: rest => TreeNode.mk k .Key .String [build v] :: buildFields rest

end

/-- Modelled from the spec: `Tree.AddNode` (tree.go, absent from src/), the
Node Grafter's `buildTopLevelChildren` (spec §4.3): an object fragment yields
its `Key` children, an array fragment its element subtrees, a scalar a single
`Value` node. -/
def buildTopLevelChildren : Json → List TreeNode
  | .obj fs => buildFields fs
  | .arr xs => buildList xs
  | v => [build v]

/-- Modelled from the spec: `NewRootTreeNode` (tree.go, absent from src/), the
Node Grafter's `buildAsNewRoot` wrapper (spec §4.3): one node standing for the
whole fragment, its children populated via `buildTopLevelChildren` (gui.go:285-286
sets them immediately after construction). -/
def newRootTreeNode (i : Json) : TreeNode :=
  TreeNode.mk ""
    (match i with
     | .obj _ => JSONType.Object
     | .arr _ => JSONType.Array
     | _ => JSONType.Value)
    ValueType.String
    (buildTopLevelChildren i)

/-! ## The substring filter -/

/-- Per-character lowering of a character list (`strings.ToLower`; the claims
only exercise ASCII, where `Char.toLower` agrees with Go). -/
def lowerChars (cs : List Char) : List Char := cs.map Char.toLower

/-- Leading-match test between a list and a candidate front segment. -/
def listStartsWith : List Char → List Char → Bool
  | _, [] => true
  | [], _ :: _ => false
  | a :: as, b :: bs => (a == b) && listStartsWith as bs

/-- Substring containment as `strings.Index(s, sub) != -1` computes it: scan
every tail of `s` for `sub` at its front. -/
def goContains : List Char → List Char → Bool
  | [], sub => sub.isEmpty
  | a :: rest, sub => listStartsWith (a :: rest) sub || goContains rest sub

/-- Spellings `strconv.ParseFloat` treats specially, outside the exact-decimal
model: the case-insensitive `inf`/`infinity`/`nan` words (optionally signed),
hex floats, and texts with digit-separating underscores. -/
def floatOutsideModel (cs : List Char) : Bool :=
  let body := if cs.head? = some '+' ∨ cs.head? = some '-' then cs.tail else cs
  let low := lowerChars body
  decide (low = ("inf".data)) || decide (low = ("infinity".data))
    || decide (low = ("nan".data))
    || listStartsWith low ('0' :: ['x'])
    || cs.contains '_'

/-- The match test of walk (gui.go:185):
`strings.Index(strings.ToLower(child.GetText()), text) != -1` — the label is
lowered, the query is used as typed. -/
def matchesQuery (label : String) (text : String) : Bool :=
  goContains (lowerChars label.data) text.data

/-- walk (gui.go:180-193): a matching child is kept whole; a non-matching
child is replaced by the walk of its own children, spliced in place. -/
def walk : List TreeNode → String → List TreeNode
  | [], _ => []
  | .mk t jt vt cs :: rest, text =>
      if matchesQuery t text then
        TreeNode.mk t jt vt cs :: walk rest text
      else
        walk cs text ++ walk rest text

/-- The filter's state: the retained Origin Snapshot (`Tree.OriginRoot`) and the
currently displayed root (`Tree.SetRoot`/`GetRoot`). -/
structure TreeState where
  originRoot : TreeNode
  root : TreeNode

/-- The SetChangedFunc closure of Search (gui.go:162-169).  `root := *g.Tree.OriginRoot`
copies the snapshot's node into a fresh value, `SetRoot(&root)` displays the
copy, and for a nonempty query `SetChildren` replaces the children of that copy
(never of the snapshot) by the walk of the snapshot's children. -/
def searchChanged (st : TreeState) (text : String) : TreeState :=
  let root := st.originRoot
  if text ≠ "" then
    { st with root := root.withChildren (walk root.children text) }
  else
    { st with root := root }

/-! ## Decoding and grafting -/

/-- The error kinds of spec §7 that arise in the core: `emptyInput` is
`ErrEmptyJSON` (gui.go:20), `decodeError` stands for the `json.Unmarshal`
error value. -/
inductive GoErr where
  | emptyInput
  | decodeError
deriving DecidableEq, Repr

/-- UnMarshalJSON (gui.go:322-340) over an in-memory buffer: a zero-length
buffer is `ErrEmptyJSON`; otherwise the standard library decoder — external to
the repository and taken here as the parameter `decode`, `none` meaning the
bytes are not valid JSON — either fails or yields the generic value. -/
def UnMarshalJSON (decode : String → Option Json) (b : String) : Except GoErr Json :=
  if b.length = 0 then Except.error GoErr.emptyInput
  else
    match decode b with
    | none => Except.error GoErr.decodeError
    | some i => Except.ok i

/-- The tree-owning state a graft sees: the full display root, the Origin
Snapshot, and the path of the currently selected node (`GetCurrentNode`) from
the root. -/
structure GuiState where
  root : TreeNode
  originRoot : TreeNode
  currentPath : List Nat

/-- Node addressed by a child-index path. -/
def getAt : TreeNode → List Nat → Option TreeNode
  | t, [] => some t
  | t, i :: p =>
      match t.children[i]? with
      | some c => getAt c p
      | none => none

/-- Rewrite the node addressed by a child-index path. -/
def modifyAt : TreeNode → List Nat → (TreeNode → TreeNode) → Option TreeNode
  | t, [], f => some (f t)
  | .mk tx jt vt cs, i :: p, f =>
      match cs[i]? with
      | some c => (modifyAt c p f).map (fun c2 => TreeNode.mk tx jt vt (cs.set i c2))
      | none => none

/-- The mutation of the AddNode handler's success path (gui.go:285-290): attach
the single wrapper node to the current node, then refresh the Origin Snapshot
to the (new) full root.  In Go the current node always exists; an invalid path
leaves the state unchanged. -/
def applyAddNode (st : GuiState) (i : Json) : GuiState :=
  match modifyAt st.root st.currentPath (fun cur => cur.addChild (newRootTreeNode i)) with
  | some r => { st with root := r, originRoot := r }
  | none => st

/-- The mutation of the AddValue handler's success path (gui.go:310-315): attach
each top-level subtree of the fragment as a further child of the current node,
then refresh the Origin Snapshot to the (new) full root. -/
def applyAddValue (st : GuiState) (i : Json) : GuiState :=
  match modifyAt st.root st.currentPath
      (fun cur => cur.withChildren (cur.children ++ buildTopLevelChildren i)) with
  | some r => { st with root := r, originRoot := r }
  | none => st

/-- The AddNode form handler (gui.go:270-293): blank field, then decoding; on
any error the tree state is returned untouched alongside the error the form
displays; only on success does the graft run. -/
def addNodeForm (decode : String → Option Json) (st : GuiState) (j : String) :
    GuiState × Option GoErr :=
  if j = "" then (st, some GoErr.emptyInput)
  else
    match UnMarshalJSON decode j with
    | Except.error e => (st, some e)
    | Except.ok i => (applyAddNode st i, none)

/-- The AddValue form handler (gui.go:295-320), same shape as `addNodeForm`. -/
def addValueForm (decode : String → Option Json) (st : GuiState) (j : String) :
    GuiState × Option GoErr :=
  if j = "" then (st, some GoErr.emptyInput)
  else
    match UnMarshalJSON decode j with
    | Except.error e => (st, some e)
    | Except.ok i => (applyAddValue st i, none)

/-- Modelled from the spec: `Tree.UpdateView` (tree.go, absent from src/) builds
the whole display tree anew from the decoded value and snapshots it (spec §4.2,
§3 Origin Snapshot lifecycle). -/
def updateView (i : Json) : GuiState :=
  { root := build i, originRoot := build i, currentPath := [] }

/-- The LoadJSON form handler (gui.go:135-153) applied to the opened file's
contents: decoding failure (including the empty file) aborts before any
mutation; success rebuilds the view. -/
def loadForm (decode : String → Option Json) (st : GuiState) (contents : String) :
    GuiState × Option GoErr :=
  match UnMarshalJSON decode contents with
  | Except.error e => (st, some e)
  | Except.ok i => (updateView i, none)

/-! ## Round-trip domain predicates -/

/-- Scalar check: not an object and not an array. -/
def isScalar : Json → Bool
  | .arr _ => false
  | .obj _ => false
  | _ => true

mutual

/-- The hypothesis of the round-trip claim as the spec states it (spec §8): the
value contains no object whose property value is itself an object or array. -/
def noCompositeObjProp : Json → Bool
  | .arr xs => noCompositeObjPropList xs
  | .obj fs => noCompositeObjPropFields fs
  | _ => true

/-- Element-wise form of `noCompositeObjProp`. -/
def noCompositeObjPropList : List Json → Bool
  | [] => true
  | x :: xs => noCompositeObjProp x && noCompositeObjPropList xs

/-- Field-wise form of `noCompositeObjProp`: every property value is a scalar. -/
def noCompositeObjPropFields : List (String × Json) → Bool
  | [] => true
  | (_, v) :: rest =>
      isScalar v && noCompositeObjProp v && noCompositeObjPropFields rest

end

/-- Pairwise strict ascent of a key list in byte order. -/
def keysSortedB : List String → Bool
  | [] => true
  | k :: rest => rest.all (fun k2 => strLtB k k2) && keysSortedB rest

mutual

/-- The round-trip domain the code actually supports: the claim's own
restriction (object properties are scalars), plus no empty arrays (the
`Array` branch's nil slice encodes as `null`), object keys pairwise strictly
ascending in byte order (the encoder sorts a Go map's keys, and a duplicate
key would be overwritten), and integers within the 64-bit `int` range
(`strconv.Atoi` clamps out-of-range input). -/
def goodRT : Json → Bool
  | .null => true
  | .bool _ => true
  | .int n => decide (minInt64 ≤ n) && decide (n ≤ maxInt64)
  | .float _ => true
  | .str _ => true
  | .arr xs => !xs.isEmpty && goodRTList xs
  | .obj fs => keysSortedB (fs.map Prod.fst) && goodRTFields fs

/-- Element-wise form of `goodRT`. -/
def goodRTList : List Json → Bool
  | [] => true
  | x :: xs => goodRT x && goodRTList xs

/-- Field-wise form of `goodRT`: every property value is a good scalar. -/
def goodRTFields : List (String × Json) → Bool
  | [] => true
  | (_, v) :: rest => isScalar v && goodRT v && goodRTFields rest

end

mutual

/-- The structural invariant of spec §3 that the serializer relies on: every
`Key` node has exactly one child (its `Key` branch indexes `GetChildren()[0]`
unconditionally), recursively below every node. -/
def wellFormed : TreeNode → Bool
  | .mk _ jt _ cs => ((jt != JSONType.Key) || (cs.length == 1)) && wellFormedList cs

/-- Child-wise form of `wellFormed`. -/
def wellFormedList : List TreeNode → Bool
  | [] => true
  | c :: rest => wellFormed c && wellFormedList rest

end

/-! ## Round-trip of the canonical integer rendering -/

theorem digitChar_isDigit : ∀ d, d < 10 → isDigitChar (digitChar d) = true := by decide

theorem digitVal_digitChar : ∀ d, d < 10 → digitVal (digitChar d) = d := by decide

theorem isDigitChar_ne_plus {c : Char} (h : isDigitChar c = true) : c ≠ '+' := by
  rintro rfl; exact absurd h (by decide)

theorem isDigitChar_ne_minus {c : Char} (h : isDigitChar c = true) : c ≠ '-' := by
  rintro rfl; exact absurd h (by decide)

theorem parseNatLoop_append : ∀ (xs : List Char) (acc a : Nat),
    parseNatLoop acc xs = some a →
    ∀ ys, parseNatLoop acc (xs ++ ys) = parseNatLoop a ys
  | [], acc, a, h, ys => by
      simp only [parseNatLoop, Option.some.injEq] at h
      subst h; rfl
  | c :: cs, acc, a, h, ys => by
      simp only [parseNatLoop] at h ⊢
      split at h
      · next hc =>
          rw [if_pos hc]
          exact parseNatLoop_append cs _ a h ys
      · exact absurd h (by simp)

theorem parseNatLoop_renderNatAux : ∀ (fuel : Nat), ∀ n ≤ fuel, ∀ acc,
    parseNatLoop acc (renderNatAux fuel n) =
      some (acc * 10 ^ (renderNatAux fuel n).length + n) := by
  intro fuel
  induction fuel with
  | zero =>
      intro n hn acc
      have : n = 0 := Nat.le_zero.mp hn
      subst this
      simp [renderNatAux, parseNatLoop]
  | succ f ih =>
      intro n hn acc
      match n with
      | 0 => simp [renderNatAux, parseNatLoop]
      | m + 1 =>
          have hdiv : (m + 1) / 10 ≤ f := by
            have := Nat.div_lt_self (Nat.succ_pos m) (by norm_num : (1:Nat) < 10)
            omega
          have hrec := ih ((m + 1) / 10) hdiv acc
          rw [renderNatAux]
          rw [parseNatLoop_append _ _ _ hrec [digitChar ((m + 1) % 10)]]
          have hd : (m + 1) % 10 < 10 := Nat.mod_lt _ (by norm_num)
          simp only [parseNatLoop, digitChar_isDigit _ hd, if_pos,
            digitVal_digitChar _ hd, List.length_append, List.length_cons,
            List.length_nil, Option.some.injEq]
          calc (acc * 10 ^ (renderNatAux f ((m + 1) / 10)).length + (m + 1) / 10) * 10
        + (m + 1) % 10
              = acc * (10 ^ (renderNatAux f ((m + 1) / 10)).length * 10)
                  + (10 * ((m + 1) / 10) + (m + 1) % 10) := by ring
            _ = acc * 10 ^ ((renderNatAux f ((m + 1) / 10)).length + (0 + 1))
                  + (m + 1) := by rw [Nat.div_add_mod, pow_succ]

theorem renderNatAux_ne_nil : ∀ n, 0 < n → renderNatAux n n ≠ [] := by
  intro n h
  match n, h with
  | m + 1, _ => rw [renderNatAux]; simp

theorem renderNat_ne_nil (n : Nat) : renderNat n ≠ [] := by
  rw [renderNat]
  split
  · simp
  · exact renderNatAux_ne_nil n (Nat.pos_of_ne_zero (by assumption))

theorem renderNatAux_all_digits : ∀ (fuel : Nat) (n : Nat),
    (renderNatAux fuel n).all isDigitChar = true := by
  intro fuel
  induction fuel with
  | zero => intro n; simp [renderNatAux]
  | succ f ih =>
      intro n
      match n with
      | 0 => simp [renderNatAux]
      | m + 1 =>
          rw [renderNatAux]
          have hd : (m + 1) % 10 < 10 := Nat.mod_lt _ (by norm_num)
          simp [List.all_append, ih, digitChar_isDigit _ hd]

theorem renderNat_all_digits (n : Nat) : (renderNat n).all isDigitChar = true := by
  rw [renderNat]
  split
  · decide
  · exact renderNatAux_all_digits n n

theorem parseNatChars_eq_loop : ∀ (cs : List Char), cs ≠ [] →
    parseNatChars cs = parseNatLoop 0 cs
  | [], h => absurd rfl h
  | c :: cs, _ => by
      simp only [parseNatChars, parseNatLoop]
      split
      · simp
      · rfl

theorem parseNat_renderNat (n : Nat) : parseNatChars (renderNat n) = some n := by
  by_cases h : n = 0
  · subst h; decide
  · rw [parseNatChars_eq_loop _ (renderNat_ne_nil n), renderNat, if_neg h]
    simpa using parseNatLoop_renderNatAux n n le_rfl 0

theorem parseInt_renderInt (n : Int) : parseIntChars (renderIntChars n) = some n := by
  rw [renderIntChars]
  by_cases h : n < 0
  · rw [if_pos h]
    rw [parseIntChars, if_neg (by decide), if_pos rfl, parseNat_renderNat]
    show some (-(((-n).toNat : Nat) : Int)) = some n
    have hnn : (((-n).toNat : Nat) : Int) = -n :=
      Int.toNat_of_nonneg (by omega)
    rw [hnn]
    congr 1
    omega
  · rw [if_neg h]
    cases hr : renderNat n.toNat with
    | nil => exact absurd hr (renderNat_ne_nil _)
    | cons c cs =>
        have hdig : isDigitChar c = true := by
          have hall := renderNat_all_digits n.toNat
          rw [hr] at hall
          simp only [List.all_cons, Bool.and_eq_true] at hall
          exact hall.1
        rw [parseIntChars, if_neg (isDigitChar_ne_plus hdig),
          if_neg (isDigitChar_ne_minus hdig), ← hr, parseNat_renderNat]
        show some ((n.toNat : Nat) : Int) = some n
        rw [Int.toNat_of_nonneg (not_lt.mp h)]

theorem goAtoi_renderInt (n : Int) (h1 : minInt64 ≤ n) (h2 : n ≤ maxInt64) :
    goAtoi (renderInt n) = n := by
  have hdata : (renderInt n).data = renderIntChars n := rfl
  rw [goAtoi, hdata, parseInt_renderInt]
  show clampInt64 n = n
  rw [clampInt64, if_neg (not_lt.mpr h2), if_neg (not_lt.mpr h1)]

/-! ## Scalar round-trip -/

theorem parseValue_build_scalar (v : Json) (hs : isScalar v = true)
    (hg : goodRT v = true) :
    parseValue (build v) = v ∧ (build v).jsonType = JSONType.Value := by
  cases v with
  | null => exact ⟨rfl, rfl⟩
  | bool b => cases b <;> exact ⟨rfl, rfl⟩
  | int n =>
      refine ⟨?_, rfl⟩
      simp only [goodRT, Bool.and_eq_true, decide_eq_true_eq] at hg
      show Json.int (goAtoi (renderInt n)) = Json.int n
      rw [goAtoi_renderInt n hg.1 hg.2]
  | float f =>
      refine ⟨?_, rfl⟩
      show goParseFloatEnc f.val = Json.float f
      rw [goParseFloatEnc, dif_pos f.property]
      exact congrArg Json.float (Subtype.eta f f.property)
  | str s => exact ⟨rfl, rfl⟩
  | arr xs => exact absurd hs (by simp [isScalar])
  | obj fs => exact absurd hs (by simp [isScalar])

/-! ## The encoder's key sort on already-sorted entries -/

theorem strLtChars_irrefl : ∀ l, strLtChars l l = false
  | [] => rfl
  | a :: as => by
      rw [strLtChars, if_neg (lt_irrefl _), if_neg (lt_irrefl _)]
      exact strLtChars_irrefl as

theorem strLtChars_asymm : ∀ l1 l2, strLtChars l1 l2 = true → strLtChars l2 l1 = false
  | [], [], h => by simp [strLtChars] at h
  | [], _ :: _, _ => rfl
  | _ :: _, [], h => by simp [strLtChars] at h
  | a :: as, b :: bs, h => by
      rw [strLtChars] at h
      rw [strLtChars]
      split at h
      · next h1 =>
          have hba : ¬ (b.toNat < a.toNat) := by omega
          rw [if_neg hba, if_pos h1]
      · next h1 =>
          split at h
          · exact absurd h (by simp)
          · next h2 =>
              rw [if_neg h2, if_neg h1]
              exact strLtChars_asymm as bs h

theorem strLtB_irrefl (k : String) : strLtB k k = false := strLtChars_irrefl k.data

theorem strLtB_ne {a b : String} (h : strLtB a b = true) : a ≠ b := by
  rintro rfl
  rw [strLtB_irrefl a] at h
  exact absurd h (by simp)

theorem sortByKey_sorted_id : ∀ (l : List (String × Json)),
    keysSortedB (l.map Prod.fst) = true → sortByKey l = l
  | [], _ => rfl
  | p :: rest, h => by
      simp only [List.map_cons, keysSortedB, Bool.and_eq_true] at h
      rw [sortByKey, sortByKey_sorted_id rest h.2]
      cases rest with
      | nil => rfl
      | cons q rest2 =>
          have hpq : strLtB p.1 q.1 = true := by
            have hall := h.1
            simp only [List.map_cons, List.all_cons, Bool.and_eq_true] at hall
            exact hall.1
          rw [insertByKey, if_neg (by
            rw [show strLtB q.1 p.1 = strLtChars q.1.data p.1.data from rfl,
              strLtChars_asymm _ _ hpq]
            simp)]

/-! ## Object and array round-trip -/

theorem mapSet_notMem : ∀ (m : List (String × Json)) (k : String) (v : Json),
    k ∉ m.map Prod.fst → mapSet m k v = m ++ [(k, v)]
  | [], _, _, _ => rfl
  | (k1, v1) :: rest, k, v, h => by
      simp only [List.map_cons, List.mem_cons] at h
      push_neg at h
      rw [mapSet, if_neg (fun he => h.1 he.symm), mapSet_notMem rest k v h.2]
      rfl

theorem makeJSON_key_scalar (k : String) (v : Json) (hs : isScalar v = true)
    (hg : goodRT v = true) :
    makeJSON (TreeNode.mk k JSONType.Key ValueType.String [build v]) = some v := by
  obtain ⟨hpv, hjt⟩ := parseValue_build_scalar v hs hg
  show (if (build v).jsonType = JSONType.Value
      then some (parseValue (build v))
      else (makeJSON (build v)).map (fun j => Json.obj [(k, j)])) = some v
  rw [if_pos hjt, hpv]

theorem makeObjFields_build : ∀ (fs m : List (String × Json)),
    goodRTFields fs = true →
    keysSortedB (fs.map Prod.fst) = true →
    (∀ k, k ∈ fs.map Prod.fst → k ∉ m.map Prod.fst) →
    makeObjFields (buildFields fs) m = some (m ++ fs)
  | [], m, _, _, _ => by simp [buildFields, makeObjFields]
  | (k, v) :: rest, m, hg, hsorted, hfresh => by
      simp only [goodRTFields, Bool.and_eq_true] at hg
      simp only [List.map_cons, keysSortedB, Bool.and_eq_true] at hsorted
      rw [buildFields, makeObjFields, makeJSON_key_scalar k v hg.1.1 hg.1.2]
      have hkm : k ∉ m.map Prod.fst := hfresh k (by simp)
      show makeObjFields (buildFields rest) (mapSet m k v) = some (m ++ (k, v) :: rest)
      rw [mapSet_notMem m k v hkm]
      rw [makeObjFields_build rest (m ++ [(k, v)]) hg.2 hsorted.2 (by
        intro k2 hk2
        have hk2fresh : k2 ∉ m.map Prod.fst := hfresh k2 (by simp [hk2])
        have hlt : strLtB k k2 = true := by
          have hall := hsorted.1
          rw [List.all_eq_true] at hall
          exact hall k2 hk2
        simp only [List.map_append, List.map_cons, List.map_nil, List.mem_append,
          List.mem_cons, List.not_mem_nil, or_false]
        rintro (hc | hc)
        · exact hk2fresh hc
        · exact strLtB_ne hlt hc.symm)]
      simp

theorem makeArrElems_build : ∀ (xs : List Json),
    (∀ x ∈ xs, makeJSON (build x) = some x) →
    makeArrElems (buildList xs) = some xs
  | [], _ => rfl
  | x :: xs, h => by
      rw [buildList, makeArrElems, h x (by simp),
        makeArrElems_build xs (fun y hy => h y (by simp [hy]))]

theorem goodRTList_mem : ∀ (xs : List Json), goodRTList xs = true →
    ∀ x ∈ xs, goodRT x = true
  | [], _, x, hx => absurd hx (List.not_mem_nil x)
  | y :: ys, h, x, hx => by
      rw [goodRTList, Bool.and_eq_true] at h
      rcases List.mem_cons.mp hx with rfl | hx2
      · exact h.1
      · exact goodRTList_mem ys h.2 x hx2

theorem json_sizeOf_pos (v : Json) : 0 < sizeOf v := by
  cases v <;> simp_arith

theorem roundTripAux : ∀ (fuel : Nat) (v : Json), sizeOf v ≤ fuel →
    goodRT v = true → makeJSON (build v) = some v := by
  intro fuel
  induction fuel with
  | zero =>
      intro v hle _
      exact absurd hle (by have := json_sizeOf_pos v; omega)
  | succ f ih =>
      intro v hle hg
      cases v with
      | null => rfl
      | bool b => cases b <;> rfl
      | int n =>
          show some (parseValue (build (Json.int n))) = some (Json.int n)
          rw [(parseValue_build_scalar (Json.int n) rfl hg).1]
      | float f2 =>
          show some (parseValue (build (Json.float f2))) = some (Json.float f2)
          rw [(parseValue_build_scalar (Json.float f2) rfl hg).1]
      | str s => rfl
      | arr xs =>
          rw [goodRT, Bool.and_eq_true] at hg
          have hsz : sizeOf xs ≤ f := by
            have : sizeOf (Json.arr xs) = 1 + sizeOf xs := by simp_arith
            omega
          have helems : ∀ x ∈ xs, makeJSON (build x) = some x := by
            intro x hx
            have hx2 := List.sizeOf_lt_of_mem hx
            exact ih x (by omega) (goodRTList_mem xs hg.2 x hx)
          show (makeArrElems (buildList xs)).map _ = some (Json.arr xs)
          rw [makeArrElems_build xs helems]
          cases xs with
          | nil => exact absurd hg.1 (by simp)
          | cons y ys => rfl
      | obj fs =>
          rw [goodRT, Bool.and_eq_true] at hg
          have hobj : makeObjFields (buildFields fs) [] = some ([] ++ fs) :=
            makeObjFields_build fs [] hg.2 hg.1 (by simp)
          show (makeObjFields (buildFields fs) []).map
              (fun m => Json.obj (sortByKey m)) = some (Json.obj fs)
          rw [hobj]
          simp [sortByKey_sorted_id fs hg.1]

/-! ## Substring containment -/

theorem listStartsWith_iff : ∀ (l p : List Char),
    listStartsWith l p = true ↔ ∃ suf, l = p ++ suf
  | l, [] => by simp [listStartsWith]
  | [], _ :: _ => by simp [listStartsWith]
  | a :: as, b :: bs => by
      rw [listStartsWith]
      simp only [Bool.and_eq_true, beq_iff_eq]
      rw [listStartsWith_iff as bs]
      constructor
      · rintro ⟨rfl, suf, rfl⟩
        exact ⟨suf, rfl⟩
      · rintro ⟨suf, h⟩
        injection h with h1 h2
        exact ⟨h1, suf, h2⟩

theorem goContains_iff : ∀ (s sub : List Char),
    goContains s sub = true ↔ ∃ pre suf, s = pre ++ sub ++ suf
  | [], sub => by
      rw [goContains]
      cases sub with
      | nil => simp
      | cons b bs => simp
  | a :: rest, sub => by
      rw [goContains]
      simp only [Bool.or_eq_true]
      rw [listStartsWith_iff, goContains_iff rest sub]
      constructor
      · rintro (⟨suf, h⟩ | ⟨pre, suf, h⟩)
        · exact ⟨[], suf, by simp [h]⟩
        · exact ⟨a :: pre, suf, by simp [h]⟩
      · rintro ⟨pre, suf, h⟩
        cases pre with
        | nil => exact Or.inl ⟨suf, by simpa using h⟩
        | cons c pre2 =>
            right
            injection h with h1 h2
            exact ⟨pre2, suf, by simpa using h2⟩

/-! ## Totality of the serializer on well-formed trees -/

theorem wellFormedList_mem : ∀ (cs : List TreeNode), wellFormedList cs = true →
    ∀ c ∈ cs, wellFormed c = true
  | [], _, c, hc => absurd hc (List.not_mem_nil c)
  | d :: rest, h, c, hc => by
      rw [wellFormedList, Bool.and_eq_true] at h
      rcases List.mem_cons.mp hc with rfl | hc2
      · exact h.1
      · exact wellFormedList_mem rest h.2 c hc2

theorem makeObjFields_isSome : ∀ (cs : List TreeNode),
    (∀ c ∈ cs, (makeJSON c).isSome = true) →
    ∀ m, (makeObjFields cs m).isSome = true
  | [], _, m => rfl
  | c :: rest, h, m => by
      rw [makeObjFields]
      cases hc : makeJSON c with
      | none => exact absurd (hc ▸ h c (by simp)) (by simp)
      | some v => exact makeObjFields_isSome rest (fun d hd => h d (by simp [hd])) _

theorem makeArrElems_isSome : ∀ (cs : List TreeNode),
    (∀ c ∈ cs, (makeJSON c).isSome = true) →
    (makeArrElems cs).isSome = true
  | [], _ => rfl
  | c :: rest, h => by
      rw [makeArrElems]
      cases hc : makeJSON c with
      | none => exact absurd (hc ▸ h c (by simp)) (by simp)
      | some v =>
          have hrest := makeArrElems_isSome rest (fun d hd => h d (by simp [hd]))
          cases hr : makeArrElems rest with
          | none => exact absurd (hr ▸ hrest) (by simp)
          | some l => rfl

theorem treeNode_sizeOf_pos (t : TreeNode) : 0 < sizeOf t := by
  cases t; simp_arith

theorem makeJSON_total_aux : ∀ (fuel : Nat) (t : TreeNode), sizeOf t ≤ fuel →
    wellFormed t = true → (makeJSON t).isSome = true := by
  intro fuel
  induction fuel with
  | zero =>
      intro t hle _
      exact absurd hle (by have := treeNode_sizeOf_pos t; omega)
  | succ f ih =>
      rintro ⟨text, jt, vt, cs⟩ hle hwf
      rw [wellFormed, Bool.and_eq_true] at hwf
      have hsz : sizeOf cs ≤ f := by
        have : sizeOf (TreeNode.mk text jt vt cs) = 1 + sizeOf text + sizeOf jt
            + sizeOf vt + sizeOf cs := by simp_arith
        omega
      have hkids : ∀ c ∈ cs, (makeJSON c).isSome = true := by
        intro c hc
        have hcs := List.sizeOf_lt_of_mem hc
        exact ih c (by omega) (wellFormedList_mem cs hwf.2 c hc)
      cases jt with
      | Object =>
          show ((makeObjFields cs []).map _).isSome = true
          have := makeObjFields_isSome cs hkids []
          cases hm : makeObjFields cs [] with
          | none => exact absurd (hm ▸ this) (by simp)
          | some m => rfl
      | Array =>
          show ((makeArrElems cs).map _).isSome = true
          have := makeArrElems_isSome cs hkids
          cases hm : makeArrElems cs with
          | none => exact absurd (hm ▸ this) (by simp)
          | some l => rfl
      | Key =>
          cases cs with
          | nil => exact absurd hwf.1 (by decide)
          | cons v rest =>
              show (if v.jsonType = JSONType.Value
                  then some (parseValue v)
                  else (makeJSON v).map (fun j => Json.obj [(text, j)])).isSome = true
              by_cases hv : v.jsonType = JSONType.Value
              · rw [if_pos hv]; rfl
              · rw [if_neg hv]
                have := hkids v (by simp)
                cases hm : makeJSON v with
                | none => exact absurd (hm ▸ this) (by simp)
                | some j => rfl
      | Value => rfl

/-! ## Path addressing for grafts -/

theorem getAt_nil (t : TreeNode) : getAt t [] = some t := by
  cases t; rfl

theorem modifyAt_nil (t : TreeNode) (f : TreeNode → TreeNode) :
    modifyAt t [] f = some (f t) := by
  cases t; rfl

theorem getAt_modifyAt : ∀ (p : List Nat) (root cur : TreeNode) (f : TreeNode → TreeNode),
    getAt root p = some cur →
    ∃ r, modifyAt root p f = some r ∧ getAt r p = some (f cur)
  | [], root, cur, f, h => by
      rw [getAt_nil, Option.some.injEq] at h
      subst h
      exact ⟨f root, modifyAt_nil root f, getAt_nil (f root)⟩
  | i :: p, root, cur, f, h => by
      obtain ⟨tx, jt, vt, cs⟩ := root
      rw [getAt, show (TreeNode.mk tx jt vt cs).children = cs from rfl] at h
      cases hci : cs[i]? with
      | none =>
          rw [hci] at h
          exact absurd h (by simp)
      | some c =>
          rw [hci] at h
          obtain ⟨r2, hr2, hget2⟩ := getAt_modifyAt p c cur f h
          have hlen : i < cs.length := by
            obtain ⟨hl, _⟩ := List.getElem?_eq_some.mp hci
            exact hl
          refine ⟨TreeNode.mk tx jt vt (cs.set i r2), ?_, ?_⟩
          · rw [modifyAt, hci]
            show (modifyAt c p f).map _ = _
            rw [hr2]
            rfl
          · rw [getAt, show (TreeNode.mk tx jt vt (cs.set i r2)).children
                = cs.set i r2 from rfl, List.getElem?_set_self hlen]
            exact hget2

/-! ## The filter never touches the snapshot -/

theorem searchChanged_origin (st : TreeState) (q : String) :
    (searchChanged st q).originRoot = st.originRoot := by
  rw [searchChanged]
  split <;> rfl

theorem foldl_searchChanged_origin : ∀ (qs : List String) (st : TreeState),
    (qs.foldl searchChanged st).originRoot = st.originRoot
  | [], _ => rfl
  | q :: qs, st => by
      rw [List.foldl_cons, foldl_searchChanged_origin qs, searchChanged_origin]

/-! ## The float pipeline: canonical texts parse, constructed texts are canonical -/

theorem digitChar_ne_zeroChar : ∀ d, d < 10 → d ≠ 0 → digitChar d ≠ '0' := by decide

theorem all_takeWhile_self (p : Char → Bool) :
    ∀ l : List Char, l.all p = true → l.takeWhile p = l
  | [], _ => rfl
  | c :: cs, h => by
      rw [List.all_cons, Bool.and_eq_true] at h
      rw [List.takeWhile_cons, if_pos h.1, all_takeWhile_self p cs h.2]

theorem all_dropWhile_nil (p : Char → Bool) :
    ∀ l : List Char, l.all p = true → l.dropWhile p = []
  | [], _ => rfl
  | c :: cs, h => by
      rw [List.all_cons, Bool.and_eq_true] at h
      rw [List.dropWhile_cons, if_pos h.1]
      exact all_dropWhile_nil p cs h.2

theorem takeWhile_append_stop (p : Char → Bool) (c0 : Char) (h0 : p c0 = false) :
    ∀ (l1 l2 : List Char), l1.all p = true →
      (l1 ++ c0 :: l2).takeWhile p = l1 ∧ (l1 ++ c0 :: l2).dropWhile p = c0 :: l2
  | [], l2, _ => by
      constructor
      · rw [List.nil_append, List.takeWhile_cons, if_neg (by simp [h0])]
      · rw [List.nil_append, List.dropWhile_cons, if_neg (by simp [h0])]
  | c :: cs, l2, h => by
      rw [List.all_cons, Bool.and_eq_true] at h
      obtain ⟨ht, hd⟩ := takeWhile_append_stop p c0 h0 cs l2 h.2
      constructor
      · rw [List.cons_append, List.takeWhile_cons, if_pos h.1, ht]
      · rw [List.cons_append, List.dropWhile_cons, if_pos h.1, hd]

theorem getLast?_cons_ne_nil (a : Char) : ∀ (l : List Char), l ≠ [] →
    (a :: l).getLast? = l.getLast?
  | [], h => absurd rfl h
  | _ :: _, _ => List.getLast?_cons_cons

theorem getLast?_append_ne_nil : ∀ (l1 l2 : List Char), l2 ≠ [] →
    (l1 ++ l2).getLast? = l2.getLast? := by
  intro l1 l2 h
  induction l1 with
  | nil => rw [List.nil_append]
  | cons a l1 ih =>
      rw [List.cons_append, getLast?_cons_ne_nil a (l1 ++ l2) (by
        intro he
        rcases List.append_eq_nil.mp he with ⟨_, h2⟩
        exact h h2), ih]

theorem getLast?_drop_lt : ∀ (l : List Char) (j : Nat), j < l.length →
    (l.drop j).getLast? = l.getLast?
  | [], j, h => by simp at h
  | c :: cs, 0, _ => rfl
  | c :: cs, j + 1, h => by
      rw [List.drop_succ_cons, getLast?_drop_lt cs j (by simpa using h)]
      exact (getLast?_cons_ne_nil c cs (by
        intro he
        subst he
        simp at h)).symm

theorem renderNatAux_zero_eq : ∀ fuel, renderNatAux fuel 0 = []
  | 0 => rfl
  | _ + 1 => rfl

theorem renderNatAux_pos_ne_nil : ∀ (f v : Nat), 1 ≤ v → v ≤ f →
    renderNatAux f v ≠ [] := by
  intro f v h1 h2
  cases f with
  | zero => omega
  | succ f2 =>
      match v, h1 with
      | w + 1, _ =>
          rw [renderNatAux]
          simp

theorem renderNatAux_head_ne_zero : ∀ (fuel : Nat), ∀ v, 1 ≤ v → v ≤ fuel →
    ∀ c cs, renderNatAux fuel v = c :: cs → c ≠ '0' := by
  intro fuel
  induction fuel with
  | zero => intro v h1 h2; omega
  | succ f ih =>
      intro v h1 h2 c cs hEq
      match v, h1 with
      | m + 1, _ =>
          rw [renderNatAux] at hEq
          by_cases hq : (m + 1) / 10 = 0
          · have hlt : m + 1 < 10 := (Nat.div_eq_zero_iff (by norm_num)).mp hq
            rw [hq, renderNatAux_zero_eq, List.nil_append] at hEq
            injection hEq with hc _
            rw [← hc]
            rw [Nat.mod_eq_of_lt hlt]
            exact digitChar_ne_zeroChar (m + 1) hlt (by omega)
          · have hdivle : (m + 1) / 10 ≤ f := by
              have := Nat.div_lt_self (show 0 < m + 1 by omega)
                (by norm_num : (1 : Nat) < 10)
              omega
            cases hrec : renderNatAux f ((m + 1) / 10) with
            | nil =>
                exact absurd hrec
                  (renderNatAux_pos_ne_nil f ((m + 1) / 10) (by omega) hdivle)
            | cons c2 cs2 =>
                rw [hrec, List.cons_append] at hEq
                injection hEq with hc _
                rw [← hc]
                exact ih ((m + 1) / 10) (by omega) hdivle c2 cs2 hrec

theorem renderNat_head_ne_zero (n : Nat) (h : 1 ≤ n) :
    ∀ c cs, renderNat n = c :: cs → c ≠ '0' := by
  intro c cs hEq
  rw [renderNat, if_neg (by omega)] at hEq
  exact renderNatAux_head_ne_zero n n h le_rfl c cs hEq

theorem renderNat_getLast (n : Nat) (h : 1 ≤ n) :
    (renderNat n).getLast? = some (digitChar (n % 10)) := by
  rw [renderNat, if_neg (by omega)]
  match n, h with
  | m + 1, _ =>
      rw [renderNatAux]
      exact List.getLast?_concat _

theorem natAbs_mod_ten_ne_zero {m : Int} (h : m % 10 ≠ 0) : m.natAbs % 10 ≠ 0 := by
  intro hc
  apply h
  have hdvd : (10 : Nat) ∣ m.natAbs := Nat.dvd_iff_mod_eq_zero.mpr hc
  have hdvd2 : (10 : Int) ∣ m := by
    rw [← Int.natAbs_dvd_natAbs]
    simpa using hdvd
  exact Int.dvd_iff_emod_eq_zero.mp hdvd2

theorem isFloatChars_of_core (m : Int) (l : List Char)
    (hc : isFloatCore l = true) (hhd : l.head? ≠ some '-') :
    isFloatChars ((if m < 0 then ['-'] else []) ++ l) = true := by
  by_cases h0 : m < 0
  · rw [if_pos h0]
    rw [show (['-'] ++ l) = '-' :: l from rfl]
    rw [isFloatChars, if_pos (show ('-' :: l).head? = some '-' from rfl)]
    simpa using hc
  · rw [if_neg h0, List.nil_append, isFloatChars, if_neg hhd]
    exact hc

theorem isFloatCore_eval (l T frac : List Char)
    (hT : l.takeWhile isDigitChar = T)
    (hD : l.dropWhile isDigitChar = '.' :: frac) :
    isFloatCore l = ((!T.isEmpty)
      && (T.length == 1 || T.head? != some '0')
      && (!frac.isEmpty) && frac.all isDigitChar
      && (frac.getLast? != some '0')) := by
  simp only [isFloatCore, hT, hD]

theorem isFloatCore_head_not_digit (c : Char) (tl : List Char)
    (hc : isDigitChar c = false) : isFloatCore (c :: tl) = false := by
  simp only [isFloatCore, List.takeWhile_cons, hc]
  split
  · simp
  · rfl

theorem parseFloatBody_eval (sgn : Int) (l T frac : List Char)
    (hT : l.takeWhile isDigitChar = T)
    (hD : l.dropWhile isDigitChar = '.' :: frac)
    (hTne : T.isEmpty = false)
    (hfall : frac.all isDigitChar = true) :
    parseFloatBody sgn l
      = some (sgn * (digitsVal (T ++ frac) : Nat), -(frac.length : Int)) := by
  simp only [parseFloatBody, hT, hD, List.head?_cons, Option.some.injEq,
    List.tail_cons, if_pos, all_takeWhile_self isDigitChar frac hfall,
    all_dropWhile_nil isDigitChar frac hfall, hTne]
  simp

theorem parseFloatBody_of_core (sgn : Int) (l : List Char)
    (h : isFloatCore l = true) : parseFloatBody sgn l ≠ none := by
  rcases hdw : l.dropWhile isDigitChar with _ | ⟨c1, frac⟩
  · simp only [isFloatCore, hdw] at h
    exact absurd h (by simp)
  · by_cases hdot : c1 = '.'
    · subst hdot
      rw [isFloatCore_eval l (l.takeWhile isDigitChar) frac rfl hdw] at h
      simp only [Bool.and_eq_true] at h
      rw [parseFloatBody_eval sgn l (l.takeWhile isDigitChar) frac rfl hdw
        (by
          have hb := h.1.1.1.1
          revert hb
          cases (l.takeWhile isDigitChar).isEmpty <;> simp)
        h.1.2]
      simp
    · simp only [isFloatCore, hdw] at h
      split at h
      · next heq =>
          injection heq with hch _
          exact absurd hch hdot
      · exact absurd h (by simp)

theorem isFloatText_true_parses (s : String) (h : isFloatText s = true) :
    parseFloatDec s.data ≠ none := by
  rw [isFloatText, isFloatChars] at h
  rw [parseFloatDec]
  by_cases hminus : s.data.head? = some '-'
  · rw [if_pos hminus] at h
    rw [if_neg (by rw [hminus]; decide), if_pos hminus]
    exact parseFloatBody_of_core (-1) _ h
  · rw [if_neg hminus] at h
    by_cases hplus : s.data.head? = some '+'
    · obtain ⟨tl, hdata⟩ : ∃ tl, s.data = '+' :: tl := by
        cases hd : s.data with
        | nil => rw [hd] at hplus; simp at hplus
        | cons c0 tl =>
            rw [hd] at hplus
            simp only [List.head?_cons, Option.some.injEq] at hplus
            subst hplus
            exact ⟨tl, rfl⟩
      rw [hdata] at h
      rw [isFloatCore_head_not_digit '+' tl (by decide)] at h
      exact absurd h (by simp)
    · rw [if_neg hplus, if_neg hminus]
      exact parseFloatBody_of_core 1 _ h

theorem stripZeros_spec : ∀ (k : Nat) (m : Int), m ≠ 0 →
    ∀ m2 k2, stripZeros m k = (m2, k2) → k2 ≠ 0 →
      m2 ≠ 0 ∧ m2 % 10 ≠ 0 ∧ 1 ≤ k2
  | 0, m, hm, m2, k2, hEq, hk2 => by
      rw [stripZeros] at hEq
      injection hEq with h1 h2
      exact absurd h2.symm hk2
  | k + 1, m, hm, m2, k2, hEq, hk2 => by
      rw [stripZeros] at hEq
      split at hEq
      · next hdvd =>
          have hmdiv : m / 10 ≠ 0 := by
            intro hzero
            apply hm
            have := Int.ediv_add_emod m 10
            rw [hzero, hdvd] at this
            omega
          exact stripZeros_spec k (m / 10) hmdiv m2 k2 hEq hk2
      · next hnd =>
          injection hEq with h1 h2
          subst h1
          subst h2
          exact ⟨hm, hnd, by omega⟩

theorem floatTextChars_ok (m : Int) (k : Nat) (hm : m ≠ 0)
    (hmod : m % 10 ≠ 0) (hk : 1 ≤ k) :
    isFloatText ⟨floatTextChars m k⟩ = true := by
  have hpos : 1 ≤ m.natAbs := by
    have := Int.natAbs_pos.mpr hm
    omega
  have hlast10 : m.natAbs % 10 ≠ 0 := natAbs_mod_ten_ne_zero hmod
  obtain ⟨c, ds', hds⟩ : ∃ c ds', renderNat m.natAbs = c :: ds' := by
    cases hr : renderNat m.natAbs with
    | nil => exact absurd hr (renderNat_ne_nil _)
    | cons c ds' => exact ⟨c, ds', rfl⟩
  have hall : (c :: ds').all isDigitChar = true := by
    rw [← hds]; exact renderNat_all_digits m.natAbs
  have hcdig : isDigitChar c = true := by
    have h2 := hall
    rw [List.all_cons, Bool.and_eq_true] at h2
    exact h2.1
  have hcne : c ≠ '0' := renderNat_head_ne_zero _ hpos c ds' hds
  have hlastne : (c :: ds').getLast? ≠ some '0' := by
    rw [← hds, renderNat_getLast _ hpos]
    intro hcon
    injection hcon with hch
    exact digitChar_ne_zeroChar _ (Nat.mod_lt _ (by norm_num)) hlast10 hch
  show isFloatChars (floatTextChars m k) = true
  simp only [floatTextChars, hds]
  by_cases hkl : k < (c :: ds').length
  · rw [if_pos hkl]
    have hlen : (c :: ds').length = ds'.length + 1 := List.length_cons c ds'
    have hkle : k ≤ ds'.length := by omega
    have hsub : (c :: ds').length - k = (ds'.length - k) + 1 := by omega
    rw [hsub, List.take_succ_cons, List.drop_succ_cons]
    obtain ⟨d0, D', hD⟩ : ∃ d0 D', ds'.drop (ds'.length - k) = d0 :: D' := by
      cases hDD : ds'.drop (ds'.length - k) with
      | nil =>
          exfalso
          have := congrArg List.length hDD
          rw [List.length_drop] at this
          simp at this
          omega
      | cons d0 D' => exact ⟨d0, D', rfl⟩
    rw [hD]
    have hTall : (c :: ds'.take (ds'.length - k)).all isDigitChar = true := by
      rw [List.all_eq_true]
      intro x hx
      rcases List.mem_cons.mp hx with rfl | hx2
      · exact hcdig
      · exact List.all_eq_true.mp hall x
          (List.mem_cons.mpr (Or.inr (List.mem_of_mem_take hx2)))
    have hDall : (d0 :: D').all isDigitChar = true := by
      rw [← hD, List.all_eq_true]
      intro x hx
      exact List.all_eq_true.mp hall x
        (List.mem_cons.mpr (Or.inr (List.mem_of_mem_drop hx)))
    have hDlast : (d0 :: D').getLast? ≠ some '0' := by
      rw [← hD, show ds'.drop (ds'.length - k)
          = (c :: ds').drop ((c :: ds').length - k) by rw [hsub, List.drop_succ_cons]]
      rw [getLast?_drop_lt (c :: ds') ((c :: ds').length - k) (by omega)]
      exact hlastne
    obtain ⟨hTW, hDW⟩ := takeWhile_append_stop isDigitChar '.' (by decide)
      (c :: ds'.take (ds'.length - k)) (d0 :: D') hTall
    rw [List.append_assoc]
    refine isFloatChars_of_core m
      ((c :: List.take (ds'.length - k) ds') ++ '.' :: d0 :: D') ?_ ?_
    · rw [isFloatCore_eval _ _ _ hTW hDW]
      simp only [Bool.and_eq_true, Bool.or_eq_true]
      refine ⟨⟨⟨⟨by simp, Or.inr ?_⟩, by simp⟩, hDall⟩, ?_⟩
      · simp only [List.head?_cons, bne_iff_ne, ne_eq, Option.some.injEq]
        exact hcne
      · simp only [bne_iff_ne, ne_eq]
        exact hDlast
    · intro hcon
      rw [List.cons_append, List.head?_cons] at hcon
      injection hcon with hch
      exact isDigitChar_ne_minus hcdig hch
  · rw [if_neg hkl]
    have hZall : (List.replicate (k - (c :: ds').length) '0'
        ++ (c :: ds')).all isDigitChar = true := by
      rw [List.all_append, Bool.and_eq_true]
      refine ⟨?_, hall⟩
      rw [List.all_eq_true]
      intro x hx
      rw [List.eq_of_mem_replicate hx]
      decide
    have hTW : (('0' : Char) :: '.' :: (List.replicate (k - (c :: ds').length) '0'
        ++ (c :: ds'))).takeWhile isDigitChar = ['0'] := by
      rw [List.takeWhile_cons, if_pos (by decide), List.takeWhile_cons,
        if_neg (by decide)]
    have hDW : (('0' : Char) :: '.' :: (List.replicate (k - (c :: ds').length) '0'
        ++ (c :: ds'))).dropWhile isDigitChar
        = '.' :: (List.replicate (k - (c :: ds').length) '0' ++ (c :: ds')) := by
      rw [List.dropWhile_cons, if_pos (by decide), List.dropWhile_cons,
        if_neg (by decide)]
    refine isFloatChars_of_core m
      ('0' :: '.' :: (List.replicate (k - (c :: ds').length) '0' ++ (c :: ds')))
      ?_ ?_
    · rw [isFloatCore_eval _ _ _ hTW hDW]
      simp only [Bool.and_eq_true, Bool.or_eq_true]
      refine ⟨⟨⟨⟨by simp, Or.inl (by decide)⟩, ?_⟩, hZall⟩, ?_⟩
      · cases hZ : List.replicate (k - (c :: ds').length) '0' with
        | nil => simp
        | cons z Z2 => simp
      · rw [getLast?_append_ne_nil _ _ (by simp)]
        simp only [bne_iff_ne, ne_eq]
        exact hlastne
    · intro hcon
      rw [List.head?_cons] at hcon
      exact absurd hcon (by decide)

theorem goFloatText_eq_float (m : Int) (k : Nat) (hm : m ≠ 0)
    (hmod : m % 10 ≠ 0) (hk : 1 ≤ k) :
    goFloatText m k
      = Json.float ⟨⟨floatTextChars m k⟩, floatTextChars_ok m k hm hmod hk⟩ := by
  rw [goFloatText, dif_pos (floatTextChars_ok m k hm hmod hk)]


/-! ## Claim theorems -/

/-- C1: the claim states that for a Key node whose single child is composite,
the serializer returns the child's serialized value unwrapped.  The code does
not: at the Key node `a` whose single child is the object `{"b": 1}`,
`makeJSON` re-wraps the child's value in a fresh one-entry object under the
key's own label, returning `{"a": {"b": 1}}` instead of the unwrapped
`{"b": 1}` — the double-nesting defect spec §9 records. -/
theorem C1_key_branch_rewraps :
    makeJSON (TreeNode.mk "a" JSONType.Key ValueType.String
      [TreeNode.mk "" JSONType.Object ValueType.String
        [TreeNode.mk "b" JSONType.Key ValueType.String
          [TreeNode.mk "1" JSONType.Value ValueType.Int []]]])
      = some (Json.obj [("a", Json.obj [("b", Json.int 1)])])
    ∧ Json.obj [("a", Json.obj [("b", Json.int 1)])] ≠ Json.obj [("b", Json.int 1)] := by
  refine ⟨rfl, ?_⟩
  intro h
  injection h with hfields
  injection hfields with hhead _
  injection hhead with hk _
  exact absurd hk (by decide)

/-- C2 counterexample: the empty array contains no object at all, so it
satisfies the claim's hypothesis verbatim, yet the tree built from `[]`
serializes to `null` (the `Array` branch's nil slice), not to a value
deep-equal to `[]`. -/
theorem C2_empty_array_not_roundtripped :
    noCompositeObjProp (Json.arr []) = true
    ∧ makeJSON (build (Json.arr [])) = some Json.null
    ∧ Json.null ≠ Json.arr [] :=
  ⟨rfl, rfl, fun h => Json.noConfusion h⟩

/-- C2 (amended): serializing the tree built from `v` yields `v` itself, key
order preserved, provided — beyond the claim's own restriction that no object
property is composite — that `v` contains no empty array (the nil slice
encodes as `null`), that every object's keys are pairwise strictly ascending
in byte order (the encoder sorts a Go map's keys, and duplicates would be
overwritten), and that every integer fits the 64-bit `int` range
(`strconv.Atoi` clamps). -/
theorem C2_roundtrip_amended (v : Json) (h : goodRT v = true) :
    makeJSON (build v) = some v :=
  roundTripAux (sizeOf v) v le_rfl h

/-- C2 witness: the amended round trip at a concrete two-field object holding
an integer and a string. -/
theorem C2_roundtrip_amended_witness :
    goodRT (Json.obj [("a", Json.int 1), ("b", Json.str "x")]) = true
    ∧ makeJSON (build (Json.obj [("a", Json.int 1), ("b", Json.str "x")]))
        = some (Json.obj [("a", Json.int 1), ("b", Json.str "x")]) :=
  ⟨by decide, C2_roundtrip_amended _ (by decide)⟩

/-- C3 counterexample: the Int-typed leaf showing `abc` does not parse as an
integer — the claim's hypothesis holds — yet `parseValue` returns the zero
value `0`, not the raw text as a string: `i, _ := strconv.Atoi(v)` discards
the error and returns `i`. -/
theorem C3_int_leaf_zero_not_raw_text :
    parseIntChars ("abc".data) = none
    ∧ parseValue (TreeNode.mk "abc" JSONType.Value ValueType.Int []) = Json.int 0
    ∧ Json.int 0 ≠ Json.str "abc" :=
  ⟨by decide, rfl, fun h => Json.noConfusion h⟩

/-- C3 (amended): the scalar parser never raises an error, but on text that no
longer parses as the recorded scalar type it does not return the raw text
either: an Int leaf yields `0` on malformed syntax and the clamped 64-bit
extremum on out-of-range text (`Atoi` discards `ErrRange` as well as
`ErrSyntax`); a Float leaf yields the zero value `0.0`, encoded as `0`, on
text ParseFloat rejects (accepted spellings come back as the parsed value);
a Boolean leaf yields `false` on any spelling ParseBool does not accept.  The
raw text comes back only through the String (unmatched) fall-through, and a
Null leaf is always `null`. -/
theorem C3_parse_failure_zero_value :
    (∀ t cs, parseIntChars t.data = none →
      parseValue (TreeNode.mk t JSONType.Value ValueType.Int cs) = Json.int 0)
    ∧ (∀ t cs n, parseIntChars t.data = some n → maxInt64 < n →
      parseValue (TreeNode.mk t JSONType.Value ValueType.Int cs) = Json.int maxInt64)
    ∧ (∀ t cs n, parseIntChars t.data = some n → n < minInt64 →
      parseValue (TreeNode.mk t JSONType.Value ValueType.Int cs) = Json.int minInt64)
    ∧ (∀ t cs, parseFloatDec t.data = none → floatOutsideModel t.data = false →
      parseValue (TreeNode.mk t JSONType.Value ValueType.Float cs) = Json.int 0)
    ∧ (∀ t cs, t ∉ parseBoolAccepted →
      parseValue (TreeNode.mk t JSONType.Value ValueType.Boolean cs) = Json.bool false)
    ∧ (∀ t cs, parseValue (TreeNode.mk t JSONType.Value ValueType.Null cs) = Json.null)
    ∧ (∀ t cs, parseValue (TreeNode.mk t JSONType.Value ValueType.String cs)
      = Json.str t) := by
  refine ⟨?_, ?_, ?_, ?_, ?_, fun t cs => rfl, fun t cs => rfl⟩
  · intro t cs h
    show Json.int (goAtoi t) = Json.int 0
    rw [goAtoi, h]
  · intro t cs n hsome hgt
    show Json.int (goAtoi t) = Json.int maxInt64
    rw [goAtoi, hsome]
    show Json.int (clampInt64 n) = Json.int maxInt64
    rw [clampInt64, if_pos hgt]
  · intro t cs n hsome hlt
    show Json.int (goAtoi t) = Json.int minInt64
    rw [goAtoi, hsome]
    show Json.int (clampInt64 n) = Json.int minInt64
    have hmaxmin : minInt64 < maxInt64 := by
      rw [maxInt64, minInt64]
      norm_num
    rw [clampInt64, if_neg (by omega), if_pos hlt]
  · intro t cs hfail _houtside
    show goParseFloatEnc t = Json.int 0
    have hcanon : ¬ isFloatText t = true := fun hfc =>
      isFloatText_true_parses t hfc hfail
    rw [goParseFloatEnc, dif_neg hcanon, hfail]
  · intro t cs h
    show Json.bool (goParseBool t) = Json.bool false
    have h6 : t ∉ (["1", "t", "T", "TRUE", "true", "True"] : List String) := by
      intro hm
      apply h
      rw [parseBoolAccepted]
      simp only [List.mem_cons, List.not_mem_nil, or_false] at hm ⊢
      tauto
    rw [goParseBool, decide_eq_false h6]

/-- C3 witness: the amended fallback at concrete failing texts — `abc` for
each typed branch and the two just-out-of-range integer spellings for the
`Atoi` clamp. -/
theorem C3_parse_failure_zero_value_witness :
    parseValue (TreeNode.mk "abc" JSONType.Value ValueType.Int []) = Json.int 0
    ∧ parseValue (TreeNode.mk "9223372036854775808" JSONType.Value ValueType.Int [])
        = Json.int maxInt64
    ∧ parseValue (TreeNode.mk "-9223372036854775809" JSONType.Value ValueType.Int [])
        = Json.int minInt64
    ∧ parseValue (TreeNode.mk "abc" JSONType.Value ValueType.Float []) = Json.int 0
    ∧ parseValue (TreeNode.mk "abc" JSONType.Value ValueType.Boolean [])
        = Json.bool false :=
  ⟨C3_parse_failure_zero_value.1 "abc" [] (by decide),
   C3_parse_failure_zero_value.2.1 "9223372036854775808" [] 9223372036854775808
     (by decide) (by decide),
   C3_parse_failure_zero_value.2.2.1 "-9223372036854775809" [] (-9223372036854775809)
     (by decide) (by decide),
   C3_parse_failure_zero_value.2.2.2.1 "abc" [] (by decide) (by decide),
   C3_parse_failure_zero_value.2.2.2.2.1 "abc" [] (by decide)⟩

/-- C4 counterexample: the filter's test lowers only the label, never the
query.  Label `a` and query `A` differ only in letter case — case-folding both
sides puts them in the substring relation — yet the node does not match, and
walk filters it out. -/
theorem C4_uppercase_query_never_matches :
    matchesQuery "a" "A" = false
    ∧ goContains (lowerChars ("a".data)) (lowerChars ("A".data)) = true
    ∧ walk [TreeNode.mk "a" JSONType.Value ValueType.String []] "A" = [] := by
  refine ⟨by decide, by decide, ?_⟩
  rw [walk, if_neg (by decide)]
  simp only [walk, List.append_nil]

/-- C4 (amended): the match test is case-insensitive in the label only: a node
matches if and only if the query, exactly as typed, occurs as a substring of
the case-folded label — so label case never matters, but a query containing an
uppercase letter matches nothing. -/
theorem C4_match_iff_query_in_lowered_label (label query : String) :
    matchesQuery label query = true
      ↔ ∃ pre suf, lowerChars label.data = pre ++ query.data ++ suf := by
  show goContains (lowerChars label.data) query.data = true ↔ _
  exact goContains_iff _ _

/-- C5: walk returns, in order, for each node either the node itself unchanged
(with its original subtree) when its lowered label contains the query, or, in
its place, the result of recursively walking the node's children. -/
theorem C5_walk_keeps_matches_and_splices_children (nodes : List TreeNode)
    (text : String) :
    walk nodes text =
      (nodes.map (fun c =>
        if matchesQuery c.text text = true then [c]
        else walk c.children text)).flatten := by
  induction nodes with
  | nil => simp [walk]
  | cons c rest ih =>
      obtain ⟨t, jt, vt, cs⟩ := c
      by_cases hm : matchesQuery t text = true
      · rw [walk, if_pos hm]
        simp only [List.map_cons, List.flatten_cons,
          show (TreeNode.mk t jt vt cs).text = t from rfl, if_pos hm]
        rw [ih]
        rfl
      · rw [walk, if_neg hm]
        simp only [List.map_cons, List.flatten_cons,
          show (TreeNode.mk t jt vt cs).text = t from rfl, if_neg hm,
          show (TreeNode.mk t jt vt cs).children = cs from rfl]
        rw [ih]

/-- C6: after any sequence of filter calls the Origin Snapshot is exactly the
initial one (no filter call mutates it — each pass only rebuilds the children
of a fresh copy of the snapshot's root), and a final empty-query call resets
the display root to that pristine snapshot. -/
theorem C6_empty_query_restores_snapshot (st : TreeState) (qs : List String) :
    (qs.foldl searchChanged st).originRoot = st.originRoot
    ∧ (searchChanged (qs.foldl searchChanged st) "").root = st.originRoot := by
  refine ⟨foldl_searchChanged_origin qs st, ?_⟩
  rw [searchChanged]
  simp only [ne_eq, not_true_eq_false, if_false]
  exact foldl_searchChanged_origin qs st

/-- C7: decoding an empty buffer fails with the empty-input error; non-empty
bytes the decoder rejects fail with the decode error; and the graft handlers
(add node, add value) and the load handler return the tree state untouched
whenever they report any error. -/
theorem C7_decode_failures_abort :
    (∀ decode, UnMarshalJSON decode "" = Except.error GoErr.emptyInput)
    ∧ (∀ decode b, b ≠ "" → decode b = none →
        UnMarshalJSON decode b = Except.error GoErr.decodeError)
    ∧ (∀ decode st j e, (addNodeForm decode st j).2 = some e →
        (addNodeForm decode st j).1 = st)
    ∧ (∀ decode st j e, (addValueForm decode st j).2 = some e →
        (addValueForm decode st j).1 = st)
    ∧ (∀ decode st c e, (loadForm decode st c).2 = some e →
        (loadForm decode st c).1 = st) := by
  refine ⟨fun decode => rfl, ?_, ?_, ?_, ?_⟩
  · intro decode b hb hdec
    have hlen : ¬ b.length = 0 := by
      intro hl
      apply hb
      cases b with
      | mk data =>
          cases data with
          | nil => rfl
          | cons c cs => simp [String.length] at hl
    rw [UnMarshalJSON, if_neg hlen, hdec]
  · intro decode st j e h
    rw [addNodeForm] at h ⊢
    by_cases hj : j = ""
    · rw [if_pos hj]
    · rw [if_neg hj] at h ⊢
      cases hu : UnMarshalJSON decode j with
      | error e2 => rfl
      | ok i =>
          rw [hu] at h
          simp at h
  · intro decode st j e h
    rw [addValueForm] at h ⊢
    by_cases hj : j = ""
    · rw [if_pos hj]
    · rw [if_neg hj] at h ⊢
      cases hu : UnMarshalJSON decode j with
      | error e2 => rfl
      | ok i =>
          rw [hu] at h
          simp at h
  · intro decode st c e h
    rw [loadForm] at h ⊢
    cases hu : UnMarshalJSON decode c with
    | error e2 => rfl
    | ok i =>
        rw [hu] at h
        simp at h

/-- C7 witness: the empty buffer, the bytes `{invalid` under a decoder that
rejects them, and the three handlers at those failing inputs, each leaving the
concrete one-node state unchanged. -/
theorem C7_decode_failures_abort_witness :
    UnMarshalJSON (fun _ => none) "" = Except.error GoErr.emptyInput
    ∧ UnMarshalJSON (fun _ => none) "\x7binvalid" = Except.error GoErr.decodeError
    ∧ (addNodeForm (fun _ => none)
        (GuiState.mk (TreeNode.mk "" JSONType.Object ValueType.String [])
          (TreeNode.mk "" JSONType.Object ValueType.String []) []) "\x7binvalid").1
      = GuiState.mk (TreeNode.mk "" JSONType.Object ValueType.String [])
          (TreeNode.mk "" JSONType.Object ValueType.String []) []
    ∧ (addValueForm (fun _ => none)
        (GuiState.mk (TreeNode.mk "" JSONType.Object ValueType.String [])
          (TreeNode.mk "" JSONType.Object ValueType.String []) []) "\x7binvalid").1
      = GuiState.mk (TreeNode.mk "" JSONType.Object ValueType.String [])
          (TreeNode.mk "" JSONType.Object ValueType.String []) []
    ∧ (loadForm (fun _ => none)
        (GuiState.mk (TreeNode.mk "" JSONType.Object ValueType.String [])
          (TreeNode.mk "" JSONType.Object ValueType.String []) []) "\x7binvalid").1
      = GuiState.mk (TreeNode.mk "" JSONType.Object ValueType.String [])
          (TreeNode.mk "" JSONType.Object ValueType.String []) [] :=
  ⟨C7_decode_failures_abort.1 (fun _ => none),
   C7_decode_failures_abort.2.1 (fun _ => none) "\x7binvalid" (by decide) rfl,
   C7_decode_failures_abort.2.2.1 (fun _ => none) _ "\x7binvalid" GoErr.decodeError rfl,
   C7_decode_failures_abort.2.2.2.1 (fun _ => none) _ "\x7binvalid" GoErr.decodeError rfl,
   C7_decode_failures_abort.2.2.2.2 (fun _ => none) _ "\x7binvalid" GoErr.decodeError rfl⟩

/-- C8: the fragment `{"x":1,"y":2}` grafts through the add-value path as two
new sibling Key children (`x` and `y`) appended to the selected node, while
the add-node path appends exactly one wrapper child for any fragment; both
paths refresh the Origin Snapshot to the new full root. -/
theorem C8_graft_placement :
    buildTopLevelChildren (Json.obj [("x", Json.int 1), ("y", Json.int 2)])
      = [TreeNode.mk "x" JSONType.Key ValueType.String
           [TreeNode.mk "1" JSONType.Value ValueType.Int []],
         TreeNode.mk "y" JSONType.Key ValueType.String
           [TreeNode.mk "2" JSONType.Value ValueType.Int []]]
    ∧ (∀ st cur, getAt st.root st.currentPath = some cur →
        (applyAddValue st (Json.obj [("x", Json.int 1), ("y", Json.int 2)])).originRoot
          = (applyAddValue st (Json.obj [("x", Json.int 1), ("y", Json.int 2)])).root
        ∧ getAt (applyAddValue st
              (Json.obj [("x", Json.int 1), ("y", Json.int 2)])).root st.currentPath
          = some (cur.withChildren (cur.children
              ++ [TreeNode.mk "x" JSONType.Key ValueType.String
                    [TreeNode.mk "1" JSONType.Value ValueType.Int []],
                  TreeNode.mk "y" JSONType.Key ValueType.String
                    [TreeNode.mk "2" JSONType.Value ValueType.Int []]])))
    ∧ (∀ st cur i, getAt st.root st.currentPath = some cur →
        (applyAddNode st i).originRoot = (applyAddNode st i).root
        ∧ getAt (applyAddNode st i).root st.currentPath
          = some (cur.withChildren (cur.children ++ [newRootTreeNode i]))) := by
  refine ⟨rfl, ?_, ?_⟩
  · intro st cur h
    obtain ⟨r, hr, hget⟩ := getAt_modifyAt st.currentPath st.root cur
      (fun c => c.withChildren (c.children
        ++ buildTopLevelChildren (Json.obj [("x", Json.int 1), ("y", Json.int 2)]))) h
    rw [applyAddValue, hr]
    exact ⟨rfl, hget⟩
  · intro st cur i h
    obtain ⟨r, hr, hget⟩ := getAt_modifyAt st.currentPath st.root cur
      (fun c => c.addChild (newRootTreeNode i)) h
    rw [applyAddNode, hr]
    exact ⟨rfl, hget⟩

/-- C8 witness: both graft paths at a concrete one-node state with the root
selected. -/
theorem C8_graft_placement_witness :
    (applyAddValue
        (GuiState.mk (TreeNode.mk "r" JSONType.Object ValueType.String [])
          (TreeNode.mk "r" JSONType.Object ValueType.String []) [])
        (Json.obj [("x", Json.int 1), ("y", Json.int 2)])).originRoot
      = (applyAddValue
        (GuiState.mk (TreeNode.mk "r" JSONType.Object ValueType.String [])
          (TreeNode.mk "r" JSONType.Object ValueType.String []) [])
        (Json.obj [("x", Json.int 1), ("y", Json.int 2)])).root
    ∧ (applyAddNode
        (GuiState.mk (TreeNode.mk "r" JSONType.Object ValueType.String [])
          (TreeNode.mk "r" JSONType.Object ValueType.String []) [])
        (Json.obj [("x", Json.int 1), ("y", Json.int 2)])).originRoot
      = (applyAddNode
        (GuiState.mk (TreeNode.mk "r" JSONType.Object ValueType.String [])
          (TreeNode.mk "r" JSONType.Object ValueType.String []) [])
        (Json.obj [("x", Json.int 1), ("y", Json.int 2)])).root :=
  ⟨(C8_graft_placement.2.1
      (GuiState.mk (TreeNode.mk "r" JSONType.Object ValueType.String [])
        (TreeNode.mk "r" JSONType.Object ValueType.String []) [])
      (TreeNode.mk "r" JSONType.Object ValueType.String []) rfl).1,
   (C8_graft_placement.2.2
      (GuiState.mk (TreeNode.mk "r" JSONType.Object ValueType.String [])
        (TreeNode.mk "r" JSONType.Object ValueType.String []) [])
      (TreeNode.mk "r" JSONType.Object ValueType.String [])
      (Json.obj [("x", Json.int 1), ("y", Json.int 2)]) rfl).1⟩

/-- C9: an Array node with no children serializes to JSON `null` — the
`Array` branch appends nothing, leaving the nil slice, which encodes as
`null` — so an empty array in the source document comes back from a
build/serialize round trip as `null`, not as `[]`. -/
theorem C9_empty_array_node_serializes_null :
    (∀ t vt, makeJSON (TreeNode.mk t JSONType.Array vt []) = some Json.null)
    ∧ makeJSON (build (Json.arr [])) = some Json.null
    ∧ Json.null ≠ Json.arr [] :=
  ⟨fun _ _ => rfl, rfl, fun h => Json.noConfusion h⟩

/-- C10: a Key node with an empty child list has no defined serialization (the
code indexes `GetChildren()[0]`, an out-of-bounds panic), and under the spec §3
invariant — every Key node has exactly one child, recursively — the serializer
is total, so that error branch is unreachable. -/
theorem C10_key_indexing_total_on_wellformed :
    (∀ t vt, makeJSON (TreeNode.mk t JSONType.Key vt []) = none)
    ∧ (∀ t, wellFormed t = true → (makeJSON t).isSome = true) :=
  ⟨fun _ _ => rfl, fun t h => makeJSON_total_aux (sizeOf t) t le_rfl h⟩

/-- C10 witness: the serializer succeeds on a concrete well-formed tree. -/
theorem C10_key_indexing_total_on_wellformed_witness :
    wellFormed (TreeNode.mk "k" JSONType.Key ValueType.String
      [TreeNode.mk "1" JSONType.Value ValueType.Int []]) = true
    ∧ (makeJSON (TreeNode.mk "k" JSONType.Key ValueType.String
        [TreeNode.mk "1" JSONType.Value ValueType.Int []])).isSome = true :=
  ⟨by decide, C10_key_indexing_total_on_wellformed.2 _ (by decide)⟩
